import Mathlib

/-!
Verification of openMVG's graph connected-component utilities
(`src/openMVG/graph/connected_component.hpp`): the plain largest
connected-component path `KeepLargestCC_Nodes` and the bi-edge-connected
path `CleanGraph_KeepLargestBiEdge_Nodes`.

The edge-list input is a `List (Nat × Nat)` (openMVG `Pair` values over
`IndexT`).  Every `std::set` of the source is embedded as a sorted
duplicate-free `List Nat` maintained by ordered insertion, so that
iterating the list is exactly the ascending iteration of the C++
container.  The supporting data structures that the header relies on but
whose sources are not part of the sampled tree (the `UnionFind` of
`openMVG/tracks/union_find.hpp`, the `indexedGraph` builder and the lemon
bridge / connected-component routines) are modelled from the spec, as
noted on each such definition.
-/

set_option maxRecDepth 8000

namespace OpenMVG

/-- An openMVG `Pair`: an edge between two entity identifiers (`IndexT`). -/
abbrev Pair := Nat × Nat

/-- Ordered duplicate-free insertion: the effect of `std::set::insert` on
the ascending element list of a `std::set<unsigned int>`. -/
def setInsert (x : Nat) : List Nat → List Nat
  | [] => [x]
  | y :: ys =>
      if x < y then x :: y :: ys
      else if x = y then y :: ys
      else y :: setInsert x ys

/-- Append `x` to an accumulator list of distinct ids unless it is already
present.  This is the effect of `node_to_index.count(x) == 0 ? node_to_index[x] = i++`
in `KeepLargestCC_Nodes` (`connected_component.hpp`, lines 170-173): the
position of an id in the accumulator is its dense index. -/
def registerId (acc : List Nat) (x : Nat) : List Nat :=
  if x ∈ acc then acc else acc ++ [x]

/-- Register the two endpoints of one edge, first element before second
(`connected_component.hpp`, lines 170-173). -/
def registerPair (acc : List Nat) (p : Pair) : List Nat :=
  registerId (registerId acc p.1) p.2

/-- The index registry built by the left-to-right scan of the edge list
(`connected_component.hpp`, lines 164-175): the list of distinct entity
ids in first-seen order; the dense index of an id is its position. -/
def nodeRegistry (edges : List Pair) : List Nat :=
  edges.foldl registerPair []

/-- Dense index of entity id `x`: its position in the first-seen registry
(the value stored in `node_to_index[x]`). -/
def nodeIndex (edges : List Pair) (x : Nat) : Nat :=
  (nodeRegistry edges).indexOf x

/-- The `std::set<IndexT> node_ids` filled by inserting both endpoints of
each listed edge (`connected_component.hpp`, lines 200-204 and 222-229),
as its ascending element list. -/
def endpointIds (l : List Pair) : List Nat :=
  l.foldl (fun s p => setInsert p.2 (setInsert p.1 s)) []

/-- Modelled from the spec: the `UnionFind` of
`openMVG/tracks/union_find.hpp` (not under the sampled sources).  Spec
§4.1: an array of singleton sets, each with a representative (root) and a
cached size; `find` returns the current root, `union` of two distinct
sets merges them and accumulates the size at the surviving root, and is a
no-op on already-joined sets.  The two arrays are embedded as total
functions on ℕ (entries at or beyond the element count are never read by
the algorithms below); `root` maps every element directly to its current
representative, which realises the contract of `Find` after path
resolution, and `m_cc_size` is the cached size array, stale away from
roots exactly as in the source contract. -/
structure UnionFind where
  root : Nat → Nat
  m_cc_size : Nat → Nat

/-- Modelled from the spec (§4.1 `init(n)`): `n` singleton sets, each its
own root with size 1. -/
def UnionFind.InitSets (_n : Nat) : UnionFind :=
  { root := fun k => k, m_cc_size := fun _ => 1 }

/-- Modelled from the spec (§4.1 `find`): the representative of the set
containing `i`. -/
def UnionFind.Find (uf : UnionFind) (i : Nat) : Nat :=
  uf.root i

/-- Modelled from the spec (§4.1 `union`): merge the sets containing `i`
and `j`; no-op when already joined, otherwise the class of `j`'s root is
relabelled to `i`'s root and the surviving root's cached size becomes the
sum of the two class sizes (the absorbed root's entry goes stale, as in
the source contract). -/
def UnionFind.Union (uf : UnionFind) (i j : Nat) : UnionFind :=
  if uf.Find i = uf.Find j then uf
  else
    { root := fun k => if uf.root k = uf.Find j then uf.Find i else uf.root k,
      m_cc_size := fun k =>
        if k = uf.Find i then uf.m_cc_size (uf.Find i) + uf.m_cc_size (uf.Find j)
        else uf.m_cc_size k }

/-- Fold a list of index pairs through `Union`, as the loop
`for (pair_it : edges) uf.Union(...)` does (`connected_component.hpp`,
lines 183-186). -/
def foldU (uf : UnionFind) (es : List (Nat × Nat)) : UnionFind :=
  es.foldl (fun u p => u.Union p.1 p.2) uf

/-- The union-find obtained from `n` singletons and a list of index
pairs. -/
def ufOf (n : Nat) (es : List (Nat × Nat)) : UnionFind :=
  foldU (UnionFind.InitSets n) es

/-- The edge list rewritten over dense indices, the pairs on which both
paths run their union/graph operations. -/
def graphEdges (edges : List Pair) : List (Nat × Nat) :=
  edges.map (fun p => (nodeIndex edges p.1, nodeIndex edges p.2))

/-- The union-find state of `KeepLargestCC_Nodes` after the union pass
(`connected_component.hpp`, lines 177-187). -/
def buildUF (edges : List Pair) : UnionFind :=
  ufOf (nodeRegistry edges).length (graphEdges edges)

/-- The `std::set<unsigned int> parent_id` of roots reached from each
edge's first endpoint (`connected_component.hpp`, lines 189-194), as its
ascending element list. -/
def parentIds (edges : List Pair) : List Nat :=
  edges.foldl (fun s p => setInsert ((buildUF edges).Find (nodeIndex edges p.1)) s) []

/-- The max-tracking loop over the ascending root set
(`connected_component.hpp`, lines 210-217): starting from the sentinel
`(UndefinedIndexT, 0)`, replace the best-so-far only on strictly larger
size. -/
def selBest (f : Nat → Nat) : List Nat → Option Nat × Nat → Option Nat × Nat
  | [], best => best
  | r :: rs, best => selBest f rs (if best.2 < f r then (some r, f r) else best)

/-- The many-components branch of `KeepLargestCC_Nodes`
(`connected_component.hpp`, lines 206-230): pick the largest component by
the strict-greater scan over the ascending `parent_id` set, then insert
both endpoints of every edge whose first endpoint resolves to the chosen
root; if the sentinel was never replaced the result stays empty. -/
def KeepLargestCC_general (edges : List Pair) : List Nat :=
  match (selBest (buildUF edges).m_cc_size (parentIds edges) (none, 0)).1 with
  | none => []
  | some r =>
      endpointIds (edges.filter
        (fun p => (buildUF edges).Find (nodeIndex edges p.1) == r))

/-- `KeepLargestCC_Nodes` (`connected_component.hpp`, lines 158-233):
when a single root is reached every edge endpoint is returned, otherwise
the largest component is selected and exported.  The returned
`std::set<IndexT>` is embedded as its ascending element list. -/
def KeepLargestCC_Nodes (edges : List Pair) : List Nat :=
  if (parentIds edges).length = 1 then endpointIds edges
  else KeepLargestCC_general edges

/-- Modelled from the spec (§4.4 step 2, glossary): lemon's
`biEdgeConnectedCutEdges` marks exactly the bridges, and bridge detection
is "correct for multigraphs: a duplicated edge between the same two nodes
is never a bridge".  An edge occurrence is therefore marked iff its two
endpoints are no longer connected once that single occurrence is removed
from the edge multiset. -/
def isCutEdge (n : Nat) (es : List (Nat × Nat)) (i : Nat) : Bool :=
  match es[i]? with
  | none => false
  | some e =>
      decide (¬ ((ufOf n (es.eraseIdx i)).Find e.1 =
                 (ufOf n (es.eraseIdx i)).Find e.2))

/-- The number of marked cut edges, the return value of
`lemon::biEdgeConnectedCutEdges` tested at `connected_component.hpp`,
line 73. -/
def numCutEdges (n : Nat) (es : List (Nat × Nat)) : Nat :=
  (List.range es.length).countP (fun i => isCutEdge n es i)

/-- The bridge-removal step (`connected_component.hpp`, lines 76-84):
every marked edge occurrence is erased, the rest survive in order. -/
def removeCutEdges (n : Nat) (es : List (Nat × Nat)) : List (Nat × Nat) :=
  (es.enum.filter (fun ie => !(isCutEdge n es ie.1))).map Prod.snd

/-- The graph edge list after the `biEdgeConnectedCutEdges > 0` guard of
`connected_component.hpp`, line 73: untouched when no edge is marked. -/
def bridgeFiltered (n : Nat) (es : List (Nat × Nat)) : List (Nat × Nat) :=
  if 0 < numCutEdges n es then removeCutEdges n es else es

/-- Modelled from the spec (§4.4 step 4): the component labels of the
bridge-free graph, produced by "a component-labeling pass" over the
nodes; scanning the dense node indices `0, 1, ...` in ascending order,
each yields its component representative, recorded at first sight.  The
resulting list orders the components exactly as the label-keyed
`std::map` of `exportGraphToMapSubgraphs` is iterated. -/
def ccRootsInOrder (n : Nat) (es : List (Nat × Nat)) : List Nat :=
  (List.range n).foldl (fun acc i => registerId acc ((ufOf n es).Find i)) []

/-- Modelled from the spec (§4.4 step 4): the member node indices of the
component with representative `r`, ascending (a `std::set` of nodes in
`exportGraphToMapSubgraphs`). -/
def componentOfRoot (n : Nat) (es : List (Nat × Nat)) (r : Nat) : List Nat :=
  (List.range n).filter (fun i => (ufOf n es).Find i == r)

/-- The component partition of `exportGraphToMapSubgraphs`
(`connected_component.hpp`, lines 26-47), listed in label order. -/
def componentsOf (n : Nat) (es : List (Nat × Nat)) : List (List Nat) :=
  (ccRootsInOrder n es).map (componentOfRoot n es)

/-- The largest-component scan of `connected_component.hpp`, lines
99-110: walk the component map in key order, keep the first component of
strictly larger size than any seen before (initial size
`std::numeric_limits<size_t>::min()`, i.e. `0`). -/
def selComp : List (List Nat) → Option (List Nat) × Nat → Option (List Nat) × Nat
  | [], best => best
  | c :: cs, best => selComp cs (if best.2 < c.length then (some c, c.length) else best)

/-- `CleanGraph_KeepLargestBiEdge_Nodes` (`connected_component.hpp`,
lines 55-151), returning both the retained id set (ascending list) and
the final mutated graph `(nodes, edges)`.  The graph over dense indices
is built by the `indexedGraph` constructor (modelled from the spec, §4.4
step 1: an explicit multigraph over the dense indices of the registered
entities); marked bridges are erased, components of the remaining graph
are extracted, the largest is selected by the strict-greater scan, its
node ids are exported, and every edge incident to a node outside it is
erased. -/
def CleanGraph_run (edges : List Pair) : List Nat × (List Nat × List (Nat × Nat)) :=
  let nodes := nodeRegistry edges
  let n := nodes.length
  let es1 := bridgeFiltered n (graphEdges edges)
  if 1 ≤ (ccRootsInOrder n es1).length then
    match (selComp (componentsOf n es1) (none, 0)).1 with
    | none => ([], (nodes, []))
    | some c =>
        (c.foldl (fun s i => setInsert (nodes.getD i 0) s) [],
         (nodes, es1.filter (fun e => decide (e.1 ∈ c) && decide (e.2 ∈ c))))
  else ([], (nodes, es1))

/-- `CleanGraph_KeepLargestBiEdge_Nodes` proper: the retained id set
(`connected_component.hpp`, line 150). -/
def CleanGraph_KeepLargestBiEdge_Nodes (edges : List Pair) : List Nat :=
  (CleanGraph_run edges).1

/-! ### Ordered-set and registry lemmas -/

lemma mem_setInsert {y x : Nat} {l : List Nat} :
    y ∈ setInsert x l ↔ y = x ∨ y ∈ l := by
  induction l with
  | nil => simp [setInsert]
  | cons z zs ih =>
      rw [setInsert]
      split_ifs with h1 h2
      · simp
      · subst h2
        simp only [List.mem_cons]
        tauto
      · simp only [List.mem_cons, ih]
        tauto

lemma sorted_setInsert {x : Nat} {l : List Nat} (h : l.Sorted (· < ·)) :
    (setInsert x l).Sorted (· < ·) := by
  induction l with
  | nil => simp [setInsert]
  | cons z zs ih =>
      rw [List.sorted_cons] at h
      obtain ⟨hz, hzs⟩ := h
      by_cases h1 : x < z
      · rw [setInsert, if_pos h1, List.sorted_cons]
        refine ⟨?_, List.sorted_cons.mpr ⟨hz, hzs⟩⟩
        intro b hb
        rcases List.mem_cons.mp hb with rfl | hb
        · exact h1
        · exact lt_trans h1 (hz b hb)
      · by_cases h2 : x = z
        · rw [setInsert, if_neg h1, if_pos h2]
          exact List.sorted_cons.mpr ⟨hz, hzs⟩
        · rw [setInsert, if_neg h1, if_neg h2, List.sorted_cons]
          refine ⟨?_, ih hzs⟩
          intro b hb
          rcases mem_setInsert.mp hb with rfl | hb
          · omega
          · exact hz b hb

lemma mem_registerId {acc : List Nat} {x y : Nat} :
    y ∈ registerId acc x ↔ y ∈ acc ∨ y = x := by
  unfold registerId
  split
  · rename_i h
    constructor
    · exact Or.inl
    · rintro (hy | rfl) <;> [exact hy; exact h]
  · simp

lemma registerId_nodup {acc : List Nat} (h : acc.Nodup) (x : Nat) :
    (registerId acc x).Nodup := by
  unfold registerId
  split
  · exact h
  · rename_i hx
    simpa [List.nodup_append] using ⟨h, hx⟩

lemma registerId_append (acc : List Nat) (x : Nat) :
    ∃ t, registerId acc x = acc ++ t := by
  unfold registerId
  split
  · exact ⟨[], by simp⟩
  · exact ⟨[x], rfl⟩

lemma registerPair_nodup {acc : List Nat} (h : acc.Nodup) (p : Pair) :
    (registerPair acc p).Nodup :=
  registerId_nodup (registerId_nodup h p.1) p.2

lemma mem_registerPair {acc : List Nat} {p : Pair} {y : Nat} :
    y ∈ registerPair acc p ↔ y ∈ acc ∨ p.1 = y ∨ p.2 = y := by
  unfold registerPair
  rw [mem_registerId, mem_registerId]
  constructor
  · rintro ((h | rfl) | rfl) <;> tauto
  · rintro (h | rfl | rfl) <;> tauto

lemma registerPair_append (acc : List Nat) (p : Pair) :
    ∃ t, registerPair acc p = acc ++ t := by
  unfold registerPair
  obtain ⟨t1, h1⟩ := registerId_append acc p.1
  obtain ⟨t2, h2⟩ := registerId_append (registerId acc p.1) p.2
  exact ⟨t1 ++ t2, by rw [h2, h1, List.append_assoc]⟩

lemma foldl_registerPair_nodup :
    ∀ (l : List Pair) (acc : List Nat), acc.Nodup → (l.foldl registerPair acc).Nodup := by
  intro l
  induction l with
  | nil => exact fun acc h => h
  | cons p ps ih => exact fun acc h => ih _ (registerPair_nodup h p)

lemma mem_foldl_registerPair :
    ∀ (l : List Pair) (acc : List Nat) (y : Nat),
      y ∈ l.foldl registerPair acc ↔ y ∈ acc ∨ ∃ p ∈ l, p.1 = y ∨ p.2 = y := by
  intro l
  induction l with
  | nil => simp
  | cons p ps ih =>
      intro acc y
      rw [List.foldl_cons, ih, mem_registerPair]
      constructor
      · rintro ((h | h | h) | ⟨q, hq, hv⟩)
        · exact Or.inl h
        · exact Or.inr ⟨p, List.mem_cons_self _ _, Or.inl h⟩
        · exact Or.inr ⟨p, List.mem_cons_self _ _, Or.inr h⟩
        · exact Or.inr ⟨q, List.mem_cons_of_mem _ hq, hv⟩
      · rintro (h | ⟨q, hq, hv⟩)
        · exact Or.inl (Or.inl h)
        · rcases List.mem_cons.mp hq with rfl | hq
          · rcases hv with h | h
            · exact Or.inl (Or.inr (Or.inl h))
            · exact Or.inl (Or.inr (Or.inr h))
          · exact Or.inr ⟨q, hq, hv⟩

lemma foldl_registerPair_append :
    ∀ (l : List Pair) (acc : List Nat), ∃ t, l.foldl registerPair acc = acc ++ t := by
  intro l
  induction l with
  | nil => exact fun acc => ⟨[], by simp⟩
  | cons p ps ih =>
      intro acc
      obtain ⟨t1, h1⟩ := registerPair_append acc p
      obtain ⟨t2, h2⟩ := ih (registerPair acc p)
      exact ⟨t1 ++ t2, by rw [List.foldl_cons, h2, h1, List.append_assoc]⟩

lemma nodeRegistry_nodup (edges : List Pair) : (nodeRegistry edges).Nodup :=
  foldl_registerPair_nodup edges [] List.nodup_nil

lemma mem_nodeRegistry {edges : List Pair} {y : Nat} :
    y ∈ nodeRegistry edges ↔ ∃ p ∈ edges, p.1 = y ∨ p.2 = y := by
  rw [nodeRegistry, mem_foldl_registerPair]
  simp

/-! ### Endpoint-set lemmas -/

lemma mem_foldl_endpoint :
    ∀ (l : List Pair) (acc : List Nat) (y : Nat),
      y ∈ l.foldl (fun s p => setInsert p.2 (setInsert p.1 s)) acc ↔
        y ∈ acc ∨ ∃ p ∈ l, p.1 = y ∨ p.2 = y := by
  intro l
  induction l with
  | nil => simp
  | cons p ps ih =>
      intro acc y
      rw [List.foldl_cons, ih, mem_setInsert, mem_setInsert]
      constructor
      · rintro ((rfl | rfl | h) | ⟨q, hq, hv⟩)
        · exact Or.inr ⟨p, List.mem_cons_self _ _, Or.inr rfl⟩
        · exact Or.inr ⟨p, List.mem_cons_self _ _, Or.inl rfl⟩
        · exact Or.inl h
        · exact Or.inr ⟨q, List.mem_cons_of_mem _ hq, hv⟩
      · rintro (h | ⟨q, hq, hv⟩)
        · exact Or.inl (Or.inr (Or.inr h))
        · rcases List.mem_cons.mp hq with rfl | hq
          · rcases hv with h | h
            · exact Or.inl (Or.inr (Or.inl h.symm))
            · exact Or.inl (Or.inl h.symm)
          · exact Or.inr ⟨q, hq, hv⟩

lemma sorted_foldl_endpoint :
    ∀ (l : List Pair) (acc : List Nat), acc.Sorted (· < ·) →
      (l.foldl (fun s p => setInsert p.2 (setInsert p.1 s)) acc).Sorted (· < ·) := by
  intro l
  induction l with
  | nil => exact fun acc h => h
  | cons p ps ih =>
      exact fun acc h => ih _ (sorted_setInsert (sorted_setInsert h))

lemma mem_endpointIds {l : List Pair} {y : Nat} :
    y ∈ endpointIds l ↔ ∃ p ∈ l, p.1 = y ∨ p.2 = y := by
  rw [endpointIds, mem_foldl_endpoint]
  simp

lemma endpointIds_sorted (l : List Pair) : (endpointIds l).Sorted (· < ·) :=
  sorted_foldl_endpoint l [] List.sorted_nil

lemma endpointIds_nodup (l : List Pair) : (endpointIds l).Nodup :=
  (endpointIds_sorted l).nodup

lemma nodeRegistry_length_eq (edges : List Pair) :
    (nodeRegistry edges).length = (endpointIds edges).length := by
  have hperm : (nodeRegistry edges).Perm (endpointIds edges) := by
    apply List.perm_of_nodup_nodup_toFinset_eq (nodeRegistry_nodup edges)
      (endpointIds_nodup edges)
    ext y
    rw [List.mem_toFinset, List.mem_toFinset, mem_nodeRegistry, mem_endpointIds]
  exact hperm.length_eq

/-! ### Union-find lemmas -/

/-- The symmetric one-step adjacency generated by a list of index
pairs. -/
def edgeRel (es : List (Nat × Nat)) (a b : Nat) : Prop :=
  (a, b) ∈ es ∨ (b, a) ∈ es

lemma UnionFind.find_union_congr (uf : UnionFind) (i j a b : Nat)
    (h : uf.Find a = uf.Find b) :
    (uf.Union i j).Find a = (uf.Union i j).Find b := by
  unfold UnionFind.Union
  unfold UnionFind.Find at *
  split_ifs <;> simp [h]

lemma UnionFind.find_union_eq (uf : UnionFind) (i j : Nat) :
    (uf.Union i j).Find i = (uf.Union i j).Find j := by
  unfold UnionFind.Union
  unfold UnionFind.Find
  split_ifs with hij
  · exact hij
  · simp [hij]

lemma foldU_find_congr :
    ∀ (es : List (Nat × Nat)) (uf : UnionFind) (a b : Nat),
      uf.Find a = uf.Find b → (foldU uf es).Find a = (foldU uf es).Find b := by
  intro es
  induction es with
  | nil => exact fun uf a b h => h
  | cons p ps ih =>
      intro uf a b h
      exact ih _ a b (UnionFind.find_union_congr uf p.1 p.2 a b h)

lemma foldU_find_mem (es : List (Nat × Nat)) (p : Nat × Nat) (hp : p ∈ es) :
    ∀ uf : UnionFind, (foldU uf es).Find p.1 = (foldU uf es).Find p.2 := by
  induction es with
  | nil => cases hp
  | cons q qs ih =>
      intro uf
      rcases List.mem_cons.mp hp with rfl | hp
      · exact foldU_find_congr qs _ p.1 p.2 (UnionFind.find_union_eq uf p.1 p.2)
      · exact ih hp _

lemma foldU_find_eqvGen {es : List (Nat × Nat)} {a b : Nat}
    (h : Relation.EqvGen (edgeRel es) a b) :
    ∀ uf : UnionFind, (foldU uf es).Find a = (foldU uf es).Find b := by
  induction h with
  | rel x y hxy =>
      intro uf
      rcases hxy with hm | hm
      · exact foldU_find_mem _ (x, y) hm uf
      · exact (foldU_find_mem _ (y, x) hm uf).symm
  | refl x => exact fun _ => rfl
  | symm x y _ ih => exact fun uf => (ih uf).symm
  | trans x y z _ _ ih1 ih2 => exact fun uf => (ih1 uf).trans (ih2 uf)

/-- Structural well-formedness maintained across union operations: every
recorded representative is itself a fixed point of `root`, and the cached
size at every root is at least one. -/
def UFWF (uf : UnionFind) : Prop :=
  (∀ k, uf.root (uf.root k) = uf.root k) ∧
  (∀ k, uf.root k = k → 1 ≤ uf.m_cc_size k)

lemma UFWF_init (n : Nat) : UFWF (UnionFind.InitSets n) :=
  ⟨fun _ => rfl, fun _ _ => le_refl 1⟩

lemma UFWF_union {uf : UnionFind} (h : UFWF uf) (i j : Nat) :
    UFWF (uf.Union i j) := by
  obtain ⟨hroot, hsize⟩ := h
  unfold UnionFind.Union
  unfold UnionFind.Find
  split_ifs with hij
  · exact ⟨hroot, hsize⟩
  · constructor
    · intro k
      simp only []
      by_cases h1 : uf.root k = uf.root j
      · rw [if_pos h1, if_neg]
        · exact hroot i
        · rw [hroot i]
          exact hij
      · rw [if_neg h1, hroot k, if_neg h1]
    · intro k hk
      simp only [] at hk ⊢
      by_cases h2 : k = uf.root i
      · rw [if_pos h2]
        have h3 : 1 ≤ uf.m_cc_size (uf.root i) := hsize _ (hroot i)
        omega
      · rw [if_neg h2]
        by_cases h1 : uf.root k = uf.root j
        · rw [if_pos h1] at hk
          exact absurd hk.symm h2
        · rw [if_neg h1] at hk
          exact hsize k hk

lemma UFWF_foldU :
    ∀ (es : List (Nat × Nat)) (uf : UnionFind), UFWF uf → UFWF (foldU uf es) := by
  intro es
  induction es with
  | nil => exact fun uf h => h
  | cons p ps ih => exact fun uf h => ih _ (UFWF_union h p.1 p.2)

lemma UFWF_buildUF (edges : List Pair) : UFWF (buildUF edges) :=
  UFWF_foldU _ _ (UFWF_init _)

lemma UFWF.find_is_root {uf : UnionFind} (h : UFWF uf) (x : Nat) :
    uf.root (uf.Find x) = uf.Find x :=
  h.1 x

lemma UFWF.size_find_pos {uf : UnionFind} (h : UFWF uf) (x : Nat) :
    1 ≤ uf.m_cc_size (uf.Find x) :=
  h.2 _ (h.1 x)

/-! ### Root-set (`parent_id`) lemmas -/

lemma mem_foldl_setInsertOf (g : Pair → Nat) :
    ∀ (l : List Pair) (acc : List Nat) (y : Nat),
      y ∈ l.foldl (fun s p => setInsert (g p) s) acc ↔ y ∈ acc ∨ ∃ p ∈ l, g p = y := by
  intro l
  induction l with
  | nil => simp
  | cons p ps ih =>
      intro acc y
      rw [List.foldl_cons, ih, mem_setInsert]
      constructor
      · rintro ((rfl | h) | ⟨q, hq, hv⟩)
        · exact Or.inr ⟨p, List.mem_cons_self _ _, rfl⟩
        · exact Or.inl h
        · exact Or.inr ⟨q, List.mem_cons_of_mem _ hq, hv⟩
      · rintro (h | ⟨q, hq, hv⟩)
        · exact Or.inl (Or.inr h)
        · rcases List.mem_cons.mp hq with rfl | hq
          · exact Or.inl (Or.inl hv.symm)
          · exact Or.inr ⟨q, hq, hv⟩

lemma sorted_foldl_setInsertOf (g : Pair → Nat) :
    ∀ (l : List Pair) (acc : List Nat), acc.Sorted (· < ·) →
      (l.foldl (fun s p => setInsert (g p) s) acc).Sorted (· < ·) := by
  intro l
  induction l with
  | nil => exact fun acc h => h
  | cons p ps ih => exact fun acc h => ih _ (sorted_setInsert h)

lemma foldl_setInsertOf_stable (g : Pair → Nat) (v : Nat) :
    ∀ (l : List Pair), (∀ p ∈ l, g p = v) →
      l.foldl (fun s p => setInsert (g p) s) [v] = [v] := by
  intro l
  induction l with
  | nil => exact fun _ => rfl
  | cons p ps ih =>
      intro h
      rw [List.foldl_cons]
      have h1 : setInsert (g p) [v] = [v] := by
        rw [h p (List.mem_cons_self _ _), setInsert, if_neg (lt_irrefl v), if_pos rfl]
      rw [h1]
      exact ih (fun q hq => h q (List.mem_cons_of_mem _ hq))

lemma foldl_setInsertOf_const (g : Pair → Nat) (v : Nat) :
    ∀ (l : List Pair), (∀ p ∈ l, g p = v) → l ≠ [] →
      l.foldl (fun s p => setInsert (g p) s) [] = [v] := by
  intro l
  cases l with
  | nil => exact fun _ h => absurd rfl h
  | cons p ps =>
      intro h _
      rw [List.foldl_cons]
      have h1 : setInsert (g p) [] = [v] := by
        rw [h p (List.mem_cons_self _ _)]
        rfl
      rw [h1]
      exact foldl_setInsertOf_stable g v ps (fun q hq => h q (List.mem_cons_of_mem _ hq))

lemma mem_parentIds {edges : List Pair} {y : Nat} :
    y ∈ parentIds edges ↔
      ∃ p ∈ edges, (buildUF edges).Find (nodeIndex edges p.1) = y := by
  simpa using
    mem_foldl_setInsertOf (fun p => (buildUF edges).Find (nodeIndex edges p.1)) edges [] y

lemma parentIds_sorted (edges : List Pair) : (parentIds edges).Sorted (· < ·) :=
  sorted_foldl_setInsertOf _ edges [] List.sorted_nil

lemma parentIds_size_pos (edges : List Pair) :
    ∀ y ∈ parentIds edges, 1 ≤ (buildUF edges).m_cc_size y := by
  intro y hy
  obtain ⟨p, _, hv⟩ := mem_parentIds.mp hy
  rw [← hv]
  exact (UFWF_buildUF edges).size_find_pos _

/-! ### The strict-greater selection scan -/

lemma selBest_cons (f : Nat → Nat) (r : Nat) (rs : List Nat) (best : Option Nat × Nat) :
    selBest f (r :: rs) best = selBest f rs (if best.2 < f r then (some r, f r) else best) :=
  rfl

/-- Behaviour of the strict-greater scan on a strictly ascending tail,
started from an installed best-so-far: the returned root is the first —
hence, the list being ascending, the smallest — root achieving the
maximal size. -/
lemma selBest_spec (f : Nat → Nat) :
    ∀ (l : List Nat) (b : Nat), l.Sorted (· < ·) → (∀ x ∈ l, b < x) →
    ∃ c, selBest f l (some b, f b) = (some c, f c) ∧
      (c = b ∨ c ∈ l) ∧ f b ≤ f c ∧ (∀ x ∈ l, f x ≤ f c) ∧
      (∀ x ∈ l, f x = f c → c ≤ x) ∧ (f c = f b → c = b) := by
  intro l
  induction l with
  | nil =>
      intro b _ _
      exact ⟨b, rfl, Or.inl rfl, le_refl _, by simp, by simp, fun _ => rfl⟩
  | cons x xs ih =>
      intro b hs hb
      rw [List.sorted_cons] at hs
      obtain ⟨hx, hxs⟩ := hs
      by_cases hcmp : f b < f x
      · have hstep : selBest f (x :: xs) (some b, f b) = selBest f xs (some x, f x) := by
          rw [selBest_cons, if_pos hcmp]
        obtain ⟨c, hc, hmem, hle, hbound, hmin, hfirst⟩ := ih x hxs hx
        refine ⟨c, hstep ▸ hc, ?_, le_trans (le_of_lt hcmp) hle, ?_, ?_, ?_⟩
        · rcases hmem with rfl | hm
          · exact Or.inr (List.mem_cons_self _ _)
          · exact Or.inr (List.mem_cons_of_mem _ hm)
        · intro y hy
          rcases List.mem_cons.mp hy with rfl | hy
          · exact hle
          · exact hbound y hy
        · intro y hy hfy
          rcases List.mem_cons.mp hy with rfl | hy
          · rw [hfirst hfy.symm]
          · exact hmin y hy hfy
        · intro hcb
          have h1 : f b < f c := lt_of_lt_of_le hcmp hle
          omega
      · have hstep : selBest f (x :: xs) (some b, f b) = selBest f xs (some b, f b) := by
          rw [selBest_cons, if_neg hcmp]
        have hb' : ∀ y ∈ xs, b < y := fun y hy => hb y (List.mem_cons_of_mem _ hy)
        obtain ⟨c, hc, hmem, hle, hbound, hmin, hfirst⟩ := ih b hxs hb'
        refine ⟨c, hstep ▸ hc, ?_, hle, ?_, ?_, hfirst⟩
        · rcases hmem with rfl | hm
          · exact Or.inl rfl
          · exact Or.inr (List.mem_cons_of_mem _ hm)
        · intro y hy
          rcases List.mem_cons.mp hy with rfl | hy
          · exact le_trans (Nat.le_of_not_lt hcmp) hle
          · exact hbound y hy
        · intro y hy hfy
          rcases List.mem_cons.mp hy with rfl | hy
          · have h1 : f c = f b := le_antisymm (by rw [← hfy]; exact Nat.le_of_not_lt hcmp) hle
            rw [hfirst h1]
            exact le_of_lt (hb _ (List.mem_cons_self _ _))
          · exact hmin y hy hfy

/-! ### Connectivity of the input graph -/

/-- The multiset of endpoints of the edge list, as scanned by the source
loops. -/
def endpointList (edges : List Pair) : List Nat :=
  edges.map Prod.fst ++ edges.map Prod.snd

/-- The input graph is connected: any two edge endpoints are related by
the equivalence closure of the edge adjacency. -/
def ConnectedInput (edges : List Pair) : Prop :=
  ∀ x ∈ endpointList edges, ∀ y ∈ endpointList edges,
    Relation.EqvGen (edgeRel edges) x y

lemma eqvGen_graphEdges {edges : List Pair} {x y : Nat}
    (h : Relation.EqvGen (edgeRel edges) x y) :
    Relation.EqvGen (edgeRel (graphEdges edges))
      (nodeIndex edges x) (nodeIndex edges y) := by
  induction h with
  | rel a b hab =>
      apply Relation.EqvGen.rel
      rcases hab with hm | hm
      · exact Or.inl (List.mem_map_of_mem _ hm)
      · exact Or.inr (List.mem_map_of_mem _ hm)
  | refl a => exact Relation.EqvGen.refl _
  | symm a b _ ih => exact Relation.EqvGen.symm _ _ ih
  | trans a b c _ _ ih1 ih2 => exact Relation.EqvGen.trans _ _ _ ih1 ih2

lemma buildUF_find_connected {edges : List Pair} {x y : Nat}
    (h : Relation.EqvGen (edgeRel edges) x y) :
    (buildUF edges).Find (nodeIndex edges x) = (buildUF edges).Find (nodeIndex edges y) :=
  foldU_find_eqvGen (eqvGen_graphEdges h) _

lemma buildUF_find_edge {edges : List Pair} {p : Pair} (hp : p ∈ edges) :
    (buildUF edges).Find (nodeIndex edges p.1) = (buildUF edges).Find (nodeIndex edges p.2) := by
  have hm : (nodeIndex edges p.1, nodeIndex edges p.2) ∈ graphEdges edges := by
    rw [graphEdges]
    exact List.mem_map_of_mem _ hp
  exact foldU_find_mem _ (nodeIndex edges p.1, nodeIndex edges p.2) hm _

lemma mem_endpointList_fst {edges : List Pair} {p : Pair} (hp : p ∈ edges) :
    p.1 ∈ endpointList edges :=
  List.mem_append_left _ (List.mem_map_of_mem _ hp)

/-- On a connected input both branches of `KeepLargestCC_Nodes` return
the full endpoint set. -/
lemma keepLargestCC_connected {edges : List Pair} (h : ConnectedInput edges) :
    KeepLargestCC_Nodes edges = endpointIds edges ∧
    KeepLargestCC_general edges = endpointIds edges := by
  cases hne : edges with
  | nil => exact ⟨rfl, rfl⟩
  | cons p0 rest =>
      rw [← hne]
      have hp0 : p0 ∈ edges := by rw [hne]; exact List.mem_cons_self _ _
      have hallv : ∀ p ∈ edges,
          (buildUF edges).Find (nodeIndex edges p.1) =
          (buildUF edges).Find (nodeIndex edges p0.1) := by
        intro p hp
        exact buildUF_find_connected
          (h p.1 (mem_endpointList_fst hp) p0.1 (mem_endpointList_fst hp0))
      have hpid : parentIds edges = [(buildUF edges).Find (nodeIndex edges p0.1)] := by
        apply foldl_setInsertOf_const _ _ _ hallv
        rw [hne]
        exact List.cons_ne_nil _ _
      have hpos : 1 ≤ (buildUF edges).m_cc_size
          ((buildUF edges).Find (nodeIndex edges p0.1)) :=
        (UFWF_buildUF edges).size_find_pos _
      have hnodes : KeepLargestCC_Nodes edges = endpointIds edges := by
        rw [KeepLargestCC_Nodes, hpid]
        simp
      refine ⟨hnodes, ?_⟩
      have hpos2 : 0 < (buildUF edges).m_cc_size
          ((buildUF edges).Find (nodeIndex edges p0.1)) := hpos
      have hfilter : edges.filter
          (fun p => (buildUF edges).Find (nodeIndex edges p.1) ==
            (buildUF edges).Find (nodeIndex edges p0.1)) = edges :=
        List.filter_eq_self.mpr (fun p hp => beq_iff_eq.mpr (hallv p hp))
      have hsel : selBest (buildUF edges).m_cc_size
          [(buildUF edges).Find (nodeIndex edges p0.1)] (none, 0) =
          (some ((buildUF edges).Find (nodeIndex edges p0.1)),
            (buildUF edges).m_cc_size ((buildUF edges).Find (nodeIndex edges p0.1))) := by
        simp [selBest_cons, selBest, hpos2]
      rw [KeepLargestCC_general, hpid, hsel]
      show endpointIds (edges.filter
        (fun p => (buildUF edges).Find (nodeIndex edges p.1) ==
          (buildUF edges).Find (nodeIndex edges p0.1))) = endpointIds edges
      rw [hfilter]

/-! ### Bi-edge path lemmas -/

lemma mem_of_getElemSome {l : List (Nat × Nat)} {i : Nat} {v : Nat × Nat}
    (h : l[i]? = some v) : v ∈ l := by
  obtain ⟨hlt, he⟩ := List.getElem?_eq_some.mp h
  exact he ▸ List.getElem_mem hlt

lemma mem_eraseIdx_of_ne {l : List (Nat × Nat)} {i j : Nat} {v : Nat × Nat}
    (hij : j ≠ i) (hj : l[j]? = some v) : v ∈ l.eraseIdx i := by
  rw [List.mem_eraseIdx_iff_getElem]
  obtain ⟨hlt, he⟩ := List.getElem?_eq_some.mp hj
  exact ⟨j, hlt, hij, he⟩

lemma mem_removeCutEdges {n : Nat} {es : List (Nat × Nat)} {i : Nat} {v : Nat × Nat}
    (hi : es[i]? = some v) (hcut : isCutEdge n es i = false) :
    v ∈ removeCutEdges n es := by
  rw [removeCutEdges]
  refine List.mem_map.mpr ⟨(i, v), ?_, rfl⟩
  rw [List.mem_filter]
  refine ⟨List.mem_enum_iff_getElem?.mpr hi, ?_⟩
  rw [hcut]
  rfl

lemma mem_bridgeFiltered {n : Nat} {es : List (Nat × Nat)} {i : Nat} {v : Nat × Nat}
    (hi : es[i]? = some v) (hcut : isCutEdge n es i = false) :
    v ∈ bridgeFiltered n es := by
  rw [bridgeFiltered]
  split
  · exact mem_removeCutEdges hi hcut
  · exact mem_of_getElemSome hi

lemma cleanGraph_run_nodes (edges : List Pair) :
    (CleanGraph_run edges).2.1 = nodeRegistry edges := by
  simp only [CleanGraph_run]
  split
  · split <;> rfl
  · rfl

/-! ### Claim theorems -/

/-- Claim C1: on the edge list
`[(1,2),(2,3),(3,1),(3,4),(4,5),(5,6),(6,4)]` — two triangles joined by
the single edge `(3,4)` — the bi-edge path marks and removes exactly the
edge occurrence at position 3 (the input edge `(3,4)`) as a bridge, then
finds two components of size 3 each, and retains `{1,2,3}`, the
component containing the lowest-indexed entity. -/
theorem biedge_two_triangles_bridge_scenario :
    (List.range
        (graphEdges [(1,2),(2,3),(3,1),(3,4),(4,5),(5,6),(6,4)]).length).filter
      (fun i => isCutEdge (nodeRegistry [(1,2),(2,3),(3,1),(3,4),(4,5),(5,6),(6,4)]).length
        (graphEdges [(1,2),(2,3),(3,1),(3,4),(4,5),(5,6),(6,4)]) i) = [3] ∧
    ([(1,2),(2,3),(3,1),(3,4),(4,5),(5,6),(6,4)] : List Pair)[3]? = some (3, 4) ∧
    (componentsOf (nodeRegistry [(1,2),(2,3),(3,1),(3,4),(4,5),(5,6),(6,4)]).length
        (bridgeFiltered (nodeRegistry [(1,2),(2,3),(3,1),(3,4),(4,5),(5,6),(6,4)]).length
          (graphEdges [(1,2),(2,3),(3,1),(3,4),(4,5),(5,6),(6,4)]))).map List.length
      = [3, 3] ∧
    CleanGraph_KeepLargestBiEdge_Nodes [(1,2),(2,3),(3,1),(3,4),(4,5),(5,6),(6,4)]
      = [1, 2, 3] :=
  ⟨by decide, by decide, by decide, by decide⟩

/-- Claim C3: on the edge list `[(1,2),(2,3),(4,5)]` the plain path
returns exactly `{1,2,3}`: the component of size 3 beats the component of
size 2. -/
theorem plain_path_concrete_scenario :
    KeepLargestCC_Nodes [(1,2),(2,3),(4,5)] = [1, 2, 3] := by decide

/-- Claim C4: whenever the union pass leaves two or more components, the
strict-greater scan over the ascending `parent_id` set selects a root of
maximal component size, and among the roots of maximal size the
numerically smallest one; the plain path then exports the endpoints of
exactly the edges resolving to that root. -/
theorem plain_path_tie_break_smallest_root (edges : List Pair)
    (h2 : 2 ≤ (parentIds edges).length) :
    ∃ r, (selBest (buildUF edges).m_cc_size (parentIds edges) (none, 0)).1 = some r ∧
      r ∈ parentIds edges ∧
      (∀ s ∈ parentIds edges,
        (buildUF edges).m_cc_size s ≤ (buildUF edges).m_cc_size r) ∧
      (∀ s ∈ parentIds edges,
        (buildUF edges).m_cc_size s = (buildUF edges).m_cc_size r → r ≤ s) ∧
      KeepLargestCC_Nodes edges = endpointIds (edges.filter
        (fun p => (buildUF edges).Find (nodeIndex edges p.1) == r)) := by
  have hsorted := parentIds_sorted edges
  have hpos := parentIds_size_pos edges
  cases hl : parentIds edges with
  | nil =>
      rw [hl] at h2
      exact absurd h2 (by simp)
  | cons r0 rest =>
      rw [hl] at hsorted
      rw [List.sorted_cons] at hsorted
      obtain ⟨hr0, hrest⟩ := hsorted
      have h0 : 0 < (buildUF edges).m_cc_size r0 :=
        hpos r0 (by rw [hl]; exact List.mem_cons_self _ _)
      have hstep : selBest (buildUF edges).m_cc_size (r0 :: rest) (none, 0) =
          selBest (buildUF edges).m_cc_size rest
            (some r0, (buildUF edges).m_cc_size r0) := by
        rw [selBest_cons]
        simp [h0]
      obtain ⟨c, hc, hmem, hle, hbound, hmin, hfirst⟩ :=
        selBest_spec (buildUF edges).m_cc_size rest r0 hrest hr0
      have hne1 : ¬ (parentIds edges).length = 1 := by
        rw [hl] at h2 ⊢
        simp only [List.length_cons] at h2 ⊢
        omega
      refine ⟨c, ?_, ?_, ?_, ?_, ?_⟩
      · rw [hstep, hc]
      · rcases hmem with rfl | hm
        · exact List.mem_cons_self _ _
        · exact List.mem_cons_of_mem _ hm
      · intro s hs
        rcases List.mem_cons.mp hs with rfl | hs
        · exact hle
        · exact hbound s hs
      · intro s hs hfs
        rcases List.mem_cons.mp hs with rfl | hs
        · rw [hfirst hfs.symm]
        · exact hmin s hs hfs
      · rw [KeepLargestCC_Nodes, if_neg hne1, KeepLargestCC_general, hl, hstep, hc]

/-- Witness for claim C4 at the concrete input `[(1,2),(3,4)]` (two
components of size 2 each). -/
theorem plain_path_tie_break_smallest_root_witness :
    2 ≤ (parentIds [(1,2),(3,4)]).length ∧
    (∃ r, (selBest (buildUF [(1,2),(3,4)]).m_cc_size (parentIds [(1,2),(3,4)])
        (none, 0)).1 = some r ∧
      r ∈ parentIds [(1,2),(3,4)] ∧
      (∀ s ∈ parentIds [(1,2),(3,4)],
        (buildUF [(1,2),(3,4)]).m_cc_size s ≤ (buildUF [(1,2),(3,4)]).m_cc_size r) ∧
      (∀ s ∈ parentIds [(1,2),(3,4)],
        (buildUF [(1,2),(3,4)]).m_cc_size s = (buildUF [(1,2),(3,4)]).m_cc_size r → r ≤ s) ∧
      KeepLargestCC_Nodes [(1,2),(3,4)] = endpointIds ([(1,2),(3,4)].filter
        (fun p => (buildUF [(1,2),(3,4)]).Find (nodeIndex [(1,2),(3,4)] p.1) == r))) :=
  ⟨by decide, plain_path_tie_break_smallest_root [(1,2),(3,4)] (by decide)⟩

/-- Claim C5: on a connected input (all edge endpoints in one connected
component) the plain path returns exactly the set of all entity ids
appearing as an endpoint of any edge. -/
theorem plain_path_connected_returns_all_endpoints (edges : List Pair)
    (h : ConnectedInput edges) :
    KeepLargestCC_Nodes edges = endpointIds edges :=
  (keepLargestCC_connected h).1

/-- Witness for claim C5 at the concrete connected input `[(5,7)]`. -/
theorem plain_path_connected_returns_all_endpoints_witness :
    ConnectedInput [(5,7)] ∧ KeepLargestCC_Nodes [(5,7)] = endpointIds [(5,7)] := by
  have h57 : Relation.EqvGen (edgeRel [(5,7)]) 5 7 :=
    Relation.EqvGen.rel _ _ (Or.inl (List.mem_singleton.mpr rfl))
  have hc : ConnectedInput [(5,7)] := by
    intro x hx y hy
    simp only [endpointList, List.map_cons, List.map_nil, List.cons_append,
      List.nil_append, List.mem_cons, List.not_mem_nil, or_false] at hx hy
    rcases hx with rfl | rfl <;> rcases hy with rfl | rfl
    · exact Relation.EqvGen.refl _
    · exact h57
    · exact Relation.EqvGen.symm _ _ h57
    · exact Relation.EqvGen.refl _
  exact ⟨hc, plain_path_connected_returns_all_endpoints _ hc⟩

/-- Claim C6: two parallel edges between the same pair of nodes are never
marked as bridges, and the corresponding graph edge survives the
bridge-removal step: a duplicated edge confers 2-edge-connectivity. -/
theorem parallel_edges_never_bridges (edges : List Pair) (i j a b : Nat)
    (hij : i ≠ j)
    (hi : edges[i]? = some (a, b))
    (hj : edges[j]? = some (a, b) ∨ edges[j]? = some (b, a)) :
    isCutEdge (nodeRegistry edges).length (graphEdges edges) i = false ∧
    (nodeIndex edges a, nodeIndex edges b) ∈
      bridgeFiltered (nodeRegistry edges).length (graphEdges edges) := by
  have hgi : (graphEdges edges)[i]? = some (nodeIndex edges a, nodeIndex edges b) := by
    rw [graphEdges, List.getElem?_map, hi]
    rfl
  have hfind : (ufOf (nodeRegistry edges).length
        ((graphEdges edges).eraseIdx i)).Find (nodeIndex edges a) =
      (ufOf (nodeRegistry edges).length
        ((graphEdges edges).eraseIdx i)).Find (nodeIndex edges b) := by
    rcases hj with h | h
    · have hgj : (graphEdges edges)[j]? = some (nodeIndex edges a, nodeIndex edges b) := by
        rw [graphEdges, List.getElem?_map, h]
        rfl
      exact foldU_find_mem _ (nodeIndex edges a, nodeIndex edges b)
        (mem_eraseIdx_of_ne (Ne.symm hij) hgj) _
    · have hgj : (graphEdges edges)[j]? = some (nodeIndex edges b, nodeIndex edges a) := by
        rw [graphEdges, List.getElem?_map, h]
        rfl
      exact (foldU_find_mem _ (nodeIndex edges b, nodeIndex edges a)
        (mem_eraseIdx_of_ne (Ne.symm hij) hgj) _).symm
  have hcut : isCutEdge (nodeRegistry edges).length (graphEdges edges) i = false := by
    rw [isCutEdge, hgi]
    simp [hfind]
  exact ⟨hcut, mem_bridgeFiltered hgi hcut⟩

/-- Witness for claim C6 at the concrete input `[(1,2),(1,2)]` with the
two parallel occurrences at positions 0 and 1. -/
theorem parallel_edges_never_bridges_witness :
    (0 : Nat) ≠ 1 ∧
    ([(1,2),(1,2)] : List Pair)[0]? = some (1, 2) ∧
    (([(1,2),(1,2)] : List Pair)[1]? = some (1, 2) ∨
     ([(1,2),(1,2)] : List Pair)[1]? = some (2, 1)) ∧
    (isCutEdge (nodeRegistry [(1,2),(1,2)]).length (graphEdges [(1,2),(1,2)]) 0 = false ∧
     (nodeIndex [(1,2),(1,2)] 1, nodeIndex [(1,2),(1,2)] 2) ∈
       bridgeFiltered (nodeRegistry [(1,2),(1,2)]).length (graphEdges [(1,2),(1,2)])) :=
  ⟨by decide, by decide, Or.inl (by decide),
    parallel_edges_never_bridges [(1,2),(1,2)] 0 1 1 2
      (by decide) (by decide) (Or.inl (by decide))⟩

/-- Claim C7: the empty edge list is not an error: both paths return the
empty retained set. -/
theorem empty_edge_list_returns_empty :
    KeepLargestCC_Nodes [] = [] ∧ CleanGraph_KeepLargestBiEdge_Nodes [] = [] :=
  ⟨by decide, by decide⟩

/-- Claim C8: the index registry assigns dense indices in first-seen
order during one left-to-right scan (each pair's first element before its
second): the registry list is duplicate-free, contains exactly the
entities appearing in some edge (so its positions are a bijection with
`0..n-1`), extending the scan only appends (an already-seen entity keeps
its index), and its length is the number of distinct endpoint
entities. -/
theorem registry_first_seen_bijection (edges : List Pair) :
    (nodeRegistry edges).Nodup ∧
    (∀ x, x ∈ nodeRegistry edges ↔ ∃ p ∈ edges, p.1 = x ∨ p.2 = x) ∧
    (∀ more, ∃ t, nodeRegistry (edges ++ more) = nodeRegistry edges ++ t) ∧
    (nodeRegistry edges).length = (endpointIds edges).length := by
  refine ⟨nodeRegistry_nodup edges, fun x => mem_nodeRegistry, ?_,
    nodeRegistry_length_eq edges⟩
  intro more
  rw [nodeRegistry, List.foldl_append]
  exact foldl_registerPair_append more _

/-- Claim C9: the bi-edge path erases edges only, never a node: the node
list of the final graph is the registry itself, so the final node count
equals the number of distinct entities registered from the edge list. -/
theorem biedge_path_never_deletes_nodes (edges : List Pair) :
    (CleanGraph_run edges).2.1 = nodeRegistry edges ∧
    ((CleanGraph_run edges).2.1).length = (endpointIds edges).length := by
  have h := cleanGraph_run_nodes edges
  refine ⟨h, ?_⟩
  rw [h]
  exact nodeRegistry_length_eq edges

/-- Claim C10: on an input whose edge endpoints form a single connected
component the fast single-root branch and the general largest-component
branch of `KeepLargestCC_Nodes` agree (both return all endpoints), and —
for the reason that makes testing only first endpoints sufficient — after
the union pass both endpoints of every edge resolve to the same root. -/
theorem plain_path_branches_equivalent (edges : List Pair)
    (h : ConnectedInput edges) :
    KeepLargestCC_general edges = KeepLargestCC_Nodes edges ∧
    KeepLargestCC_Nodes edges = endpointIds edges ∧
    ∀ p ∈ edges, (buildUF edges).Find (nodeIndex edges p.1) =
      (buildUF edges).Find (nodeIndex edges p.2) := by
  obtain ⟨h1, h2⟩ := keepLargestCC_connected h
  exact ⟨h2.trans h1.symm, h1, fun p hp => buildUF_find_edge hp⟩

/-- Witness for claim C10 at the concrete connected input
`[(1,2),(2,3)]`. -/
theorem plain_path_branches_equivalent_witness :
    ConnectedInput [(1,2),(2,3)] ∧
    (KeepLargestCC_general [(1,2),(2,3)] = KeepLargestCC_Nodes [(1,2),(2,3)] ∧
     KeepLargestCC_Nodes [(1,2),(2,3)] = endpointIds [(1,2),(2,3)] ∧
     ∀ p ∈ ([(1,2),(2,3)] : List Pair),
       (buildUF [(1,2),(2,3)]).Find (nodeIndex [(1,2),(2,3)] p.1) =
       (buildUF [(1,2),(2,3)]).Find (nodeIndex [(1,2),(2,3)] p.2)) := by
  have h12 : Relation.EqvGen (edgeRel [(1,2),(2,3)]) 1 2 :=
    Relation.EqvGen.rel _ _ (Or.inl (List.mem_cons_self _ _))
  have h23 : Relation.EqvGen (edgeRel [(1,2),(2,3)]) 2 3 :=
    Relation.EqvGen.rel _ _
      (Or.inl (List.mem_cons_of_mem _ (List.mem_cons_self _ _)))
  have hc : ConnectedInput [(1,2),(2,3)] := by
    intro x hx y hy
    simp only [endpointList, List.map_cons, List.map_nil, List.cons_append,
      List.nil_append, List.mem_cons, List.not_mem_nil, or_false] at hx hy
    rcases hx with rfl | rfl | rfl | rfl <;> rcases hy with rfl | rfl | rfl | rfl <;>
      first
        | exact Relation.EqvGen.refl _
        | exact h12
        | exact h23
        | exact Relation.EqvGen.symm _ _ h12
        | exact Relation.EqvGen.symm _ _ h23
        | exact Relation.EqvGen.trans _ _ _ h12 h23
        | exact Relation.EqvGen.symm _ _ (Relation.EqvGen.trans _ _ _ h12 h23)
  exact ⟨hc, plain_path_branches_equivalent _ hc⟩

end OpenMVG
